import Mathlib

/-!
Verification development for the admission-control and reputation engine of the
blockchain-insights subnet repository.

The embedded operations come from two places:

* `insights/api/insight_api.py` — the coordinator side: `update_scores` (the
  exponential-moving-average reputation update), `get_reward` (the constant
  reward), the excluded-uid reset inside `get_response`, the reward filtering
  and the random choice of the returned response.
* the miner-side admission cascade (`base_blacklist`, `discovery_blacklist`)
  and the weight publication pipeline, whose implementations are not part of
  the sources at hand; they are modelled from the specification, with
  behaviour pinned by `src/tests/miners/test_blacklist.py` wherever the tests
  exercise it.

Machine floats appearing in the reward path are modelled by `FpVal`, rationals
extended with the two infinities and NaN; finite arithmetic is exact.
-/

/-- Test that the pattern list occurs at the head of the second character list. -/
def startsWithChars : List Char → List Char → Bool
  | [], _ => true
  | _ :: _, [] => false
  | p :: ps, c :: cs => (p == c) && startsWithChars ps cs

/-- Substring occurrence test on character lists: the pattern occurs at some
position of the second list. -/
def hasSubChars (pat : List Char) : List Char → Bool
  | [] => startsWithChars pat []
  | c :: cs => startsWithChars pat (c :: cs) || hasSubChars pat cs

/-- Substring containment on strings: `strContains s pat = true` when `pat`
occurs contiguously inside `s`. -/
def strContains (s pat : String) : Bool :=
  hasSubChars pat.data s.data

/-- Serving mode of a miner: the tests use the string `prod` for the
restricted mode; any other mode skips the restricted-only checks. -/
inductive Mode where
  | permissive
  | restricted
deriving DecidableEq, Repr

/-- Configuration consumed by the admission cascade (data model of the spec,
restricted to the fields the cascade reads). -/
structure GatekeeperConfig where
  protocolVersion : Nat
  mode : Mode
  whitelist : List String
  blacklist : List String
  stakeThreshold : ℚ
  rateWindowSeconds : ℚ
  maxRequestsPerWindow : Nat
deriving DecidableEq, Repr

/-- Per-request context: the calling identity and the protocol version it
declares. -/
structure RequestContext where
  identity : String
  protocolVersion : Nat
deriving DecidableEq, Repr

/-- Outcome of the cascade. `allow = false` corresponds to the Python
`base_blacklist`/`discovery_blacklist` returning `True` (request blacklisted);
the reason string is always populated. -/
structure Decision where
  allow : Bool
  reason : String
deriving DecidableEq, Repr

/-- Modelled from the spec: the base admission cascade `base_blacklist` of
`neurons/miners/blacklist.py`, which is absent from the sources at hand (only
its tests are present). Checks in order: registry membership, protocol
version, explicit blacklist, allow-list gate. Reason strings and the
allow-list behaviour are pinned by `src/tests/miners/test_blacklist.py`: in
restricted mode the allow-list gate denies whenever the identity is not in the
whitelist, including when the whitelist is empty
(`test_base_blacklist_not_whitelisted_hotkey`). -/
def base_blacklist (registry : List String) (cfg : GatekeeperConfig)
    (ctx : RequestContext) : Decision :=
  if ctx.identity ∈ registry then
    if ctx.protocolVersion = cfg.protocolVersion then
      if ctx.identity ∈ cfg.blacklist then
        { allow := false, reason := "Blacklisted hotkey: " ++ ctx.identity }
      else if cfg.mode = Mode.restricted ∧ ctx.identity ∉ cfg.whitelist then
        { allow := false, reason := "Not Whitelisted hotkey: " ++ ctx.identity }
      else
        { allow := true, reason := "Hotkey recognized" }
    else
      { allow := false, reason := "Blacklisted: Protocol Version differs" }
  else
    { allow := false, reason := "Unrecognized hotkey" }

/-- Modelled from the spec: the discovery-level cascade `discovery_blacklist`
of `neurons/miners/blacklist.py` (absent from the sources at hand), steps 6-9
of the specification cascade, pinned by `src/tests/miners/test_blacklist.py`.
After the base cascade: registration among reachable endpoints, the stake
floor (restricted mode only), then the sliding-window rate limit. Eviction
keeps the timestamps `t` with `now - t ≤ rateWindowSeconds`; the count is
taken before the current request, and the current timestamp is appended only
when the request is allowed. Returns the decision together with the updated
timestamp list of the identity. -/
def discovery_blacklist (registry reachable : List String) (stakeOf : String → ℚ)
    (cfg : GatekeeperConfig) (ctx : RequestContext) (timestamps : List ℚ)
    (now : ℚ) : Decision × List ℚ :=
  let base := base_blacklist registry cfg ctx
  if base.allow = false then
    (base, timestamps)
  else if ctx.identity ∉ reachable then
    ({ allow := false,
       reason := "Blacklisted a non registered hotkey request from " ++ ctx.identity },
     timestamps)
  else if cfg.mode = Mode.restricted ∧ stakeOf ctx.identity < cfg.stakeThreshold then
    ({ allow := false, reason := "Denied due to low stake" }, timestamps)
  else
    let kept := timestamps.filter (fun t => decide (now - t ≤ cfg.rateWindowSeconds))
    if cfg.maxRequestsPerWindow ≤ kept.length then
      ({ allow := false, reason := "Request rate exceeded for " ++ ctx.identity }, kept)
    else
      ({ allow := true, reason := "Hotkey recognized!" }, kept ++ [now])

example :
    base_blacklist ["h"] ⟨1, Mode.restricted, ["h"], [], 0, 60, 5⟩ ⟨"h", 1⟩ =
      { allow := true, reason := "Hotkey recognized" } := by decide

example :
    base_blacklist ["h"] ⟨1, Mode.restricted, [], [], 0, 60, 5⟩ ⟨"h", 1⟩ =
      { allow := false, reason := "Not Whitelisted hotkey: h" } := by decide

example :
    (discovery_blacklist ["h"] ["h"] (fun _ => 5) ⟨1, Mode.permissive, [], [], 0, 60, 1⟩
      ⟨"h", 1⟩ [0] 10).1 =
      { allow := false, reason := "Request rate exceeded for h" } := by
  norm_num [discovery_blacklist, base_blacklist]
  decide

example :
    (discovery_blacklist ["h"] ["h"] (fun _ => 5) ⟨1, Mode.permissive, [], [], 0, 60, 1⟩
      ⟨"h", 1⟩ [0] 100).1 =
      { allow := true, reason := "Hotkey recognized!" } := by
  norm_num [discovery_blacklist, base_blacklist]
  decide

/-- Machine float values as used on the reward path: exact rationals extended
with the two infinities and NaN. Finite arithmetic is modelled exactly. -/
inductive FpVal where
  | fin (q : ℚ)
  | pinf
  | ninf
  | nan
deriving DecidableEq, Repr

/-- NaN test, the elementwise content of `torch.isnan`. -/
def FpVal.isNanB : FpVal → Bool
  | .nan => true
  | _ => false

/-- Finiteness test: true exactly on finite values. -/
def FpVal.isFiniteB : FpVal → Bool
  | .fin _ => true
  | _ => false

/-- IEEE multiplication on the extended values: NaN propagates, a zero times
an infinity is NaN, otherwise infinities keep the sign of the product. -/
def fmul : FpVal → FpVal → FpVal
  | .nan, _ => .nan
  | _, .nan => .nan
  | .fin a, .fin b => .fin (a * b)
  | .fin a, .pinf => if 0 < a then .pinf else if a < 0 then .ninf else .nan
  | .fin a, .ninf => if 0 < a then .ninf else if a < 0 then .pinf else .nan
  | .pinf, .fin b => if 0 < b then .pinf else if b < 0 then .ninf else .nan
  | .ninf, .fin b => if 0 < b then .ninf else if b < 0 then .pinf else .nan
  | .pinf, .pinf => .pinf
  | .pinf, .ninf => .ninf
  | .ninf, .pinf => .ninf
  | .ninf, .ninf => .pinf

/-- IEEE addition on the extended values: NaN propagates, opposite infinities
give NaN, otherwise infinities absorb finite summands. -/
def fadd : FpVal → FpVal → FpVal
  | .nan, _ => .nan
  | _, .nan => .nan
  | .fin a, .fin b => .fin (a + b)
  | .fin _, .pinf => .pinf
  | .fin _, .ninf => .ninf
  | .pinf, .fin _ => .pinf
  | .ninf, .fin _ => .ninf
  | .pinf, .pinf => .pinf
  | .pinf, .ninf => .nan
  | .ninf, .pinf => .nan
  | .ninf, .ninf => .ninf

/-- Largest finite value of the IEEE single-precision format,
`(2 - 2 ^ (-23)) * 2 ^ 127`. -/
def FMAX : ℚ := 2 ^ 128 - 2 ^ 104

/-- Elementwise content of `torch.nan_to_num(·, 0)`: NaN becomes `0`, and the
two infinities are clamped to the extreme finite values (they are NOT sent to
zero). -/
def nanToNum : FpVal → FpVal
  | .nan => .fin 0
  | .pinf => .fin FMAX
  | .ninf => .fin (-FMAX)
  | .fin a => .fin a

/-- Lines 118-122 of `insights/api/insight_api.py` (`update_scores`): only when
some reward is NaN is the whole vector passed through
`torch.nan_to_num(rewards, 0)`; otherwise it is left untouched. -/
def sanitizeRewards (rewards : List FpVal) : List FpVal :=
  if rewards.any FpVal.isNanB then rewards.map nanToNum else rewards

/-- Model of `self.scores.scatter(0, uids_tensor, rewards)` (line 132 of
`insight_api.py`): the value at position `uids[i]` is replaced by
`rewards[i]`; every other position keeps its value. Positionwise writes,
matching the tensor semantics for mutually exclusive uids. -/
def scatter : List FpVal → List Nat → List FpVal → List FpVal
  | scores, _, [] => scores
  | scores, [], _ :: _ => scores
  | scores, u :: us, r :: rs => scatter (scores.set u r) us rs

/-- Lines 139-142 of `insight_api.py`: the exponential-moving-average step
`alpha * scattered_rewards + (1 - alpha) * scores`, elementwise over the two
vectors. -/
def emaStep (alpha : ℚ) (scattered scores : List FpVal) : List FpVal :=
  List.zipWith (fun r s => fadd (fmul (.fin alpha) r) (fmul (.fin (1 - alpha)) s))
    scattered scores

/-- `update_scores` of `insights/api/insight_api.py` (lines 115-143): NaN
sanitisation of the rewards, scatter onto the score vector at the given uids,
then the exponential moving average with smoothing constant `alpha`
(`config.user_query_moving_average_alpha`). -/
def update_scores (alpha : ℚ) (scores rewards : List FpVal) (uids : List Nat) :
    List FpVal :=
  emaStep alpha (scatter scores uids (sanitizeRewards rewards)) scores

/-- Python `int(·)` truncation toward zero on a rational. -/
def pyInt (q : ℚ) : ℤ :=
  if 0 ≤ q then ⌊q⌋ else ⌈q⌉

/-- Lines 246-249 of `insight_api.py` (`get_response`): after the excluded-uid
list has grown, it is reset to empty when its length exceeds
`int(self.metagraph.n * self.config.top_rate)`; otherwise it is left as is. -/
def formatExcludedUids (excluded : List Nat) (n : Nat) (topRate : ℚ) : List Nat :=
  if pyInt (topRate * n) < (excluded.length : ℤ) then [] else excluded

/-- Lines 112-113 of `insight_api.py`: the reward computation returns the
constant `0.5` for every (response, uid) pair; the `Option` result type
records that the caller treats `None` as the no-reward marker. -/
def get_reward (_response : String) (_uid : Nat) : Option ℚ :=
  some (1 / 2)

/-- Lines 232-234 of `insight_api.py`: one reward per (response, uid) pair. -/
def rewardList (responses : List String) (uids : List Nat) : List (Option ℚ) :=
  (responses.zip uids).map (fun p => get_reward p.1 p.2)

/-- Line 236 of `insight_api.py`: pair the rewards back with the uids and drop
the pairs whose reward is the no-reward marker `None`. -/
def filtered_data (responses : List String) (uids : List Nat) :
    List (Option ℚ × Nat) :=
  ((rewardList responses uids).zip uids).filter (fun p => p.1.isSome)

/-- Lines 238-244 of `insight_api.py`: when the filtered list is non-empty,
unzip it and call `update_scores` with the reward vector and uid list; when it
is empty the update is skipped (`none`). The returned pair is exactly the
argument pair passed to `update_scores`. -/
def updateCall (responses : List String) (uids : List Nat) :
    Option (List ℚ × List Nat) :=
  let fd := filtered_data responses uids
  if fd.isEmpty then none
  else some (fd.map (fun p => p.1.getD 0), fd.map Prod.snd)

/-- Lines 254-257 of `insight_api.py`: `random.choice(responses)` is modelled
by the position `draw` it draws (uniform over `0, ..., responses.length - 1`);
`responses.index` then returns the FIRST position holding the drawn value, and
the endpoint answers with the response text at that position together with the
hotkey of the uid at that position. -/
def chooseResponse (responses : List String) (uids : List Nat)
    (hotkeys : List String) (draw : Nat) : String × String :=
  let chosen := responses.getD draw ""
  let idx := List.indexOf chosen responses
  (responses.getD idx "", hotkeys.getD (uids.getD idx 0) "")

/-- Modelled from the spec: step (1) and (3) of the `WeightPublisher.publish`
contract (the repository performs these through external library calls inside
`set_weights`, lines 41-61 of `insight_api.py`, so the pipeline itself is not
under the sources at hand). `quantize` is the largest-remainder rounding of
step (3): floors of `w * B`, then one extra unit to each of the
`B - sum-of-floors` indices of largest fractional remainder. -/
def quantize (ws : List ℚ) (B : ℕ) : List ℤ :=
  let floors := ws.map (fun w => ⌊w * (B : ℚ)⌋)
  let rems := ws.map (fun w => w * (B : ℚ) - (⌊w * (B : ℚ)⌋ : ℚ))
  let k := ((B : ℤ) - floors.sum).toNat
  let order := ((List.range ws.length).map (fun i => (i, rems.getD i 0))).mergeSort
    (fun a b => decide (b.2 ≤ a.2))
  let extra := (order.take k).map Prod.fst
  (List.range ws.length).map (fun i => floors.getD i 0 + (if i ∈ extra then 1 else 0))

/-- Modelled from the spec: `WeightPublisher.publish` step (1), the
L1-normalisation with the zero-sum guard — if the sum of the scores is zero
an all-zero vector is returned with no division; otherwise every score is
divided by the sum and the result quantized to the budget `B` (step (2), the
optional external cap, is skipped as the spec allows). -/
def publish (scores : List ℚ) (B : ℕ) : List ℤ :=
  if scores.sum = 0 then scores.map (fun _ => 0)
  else quantize (scores.map (fun s => s / scores.sum)) B

/-! Helper lemmas about the string-containment test and list access. -/

theorem startsWithChars_self_append (pat r : List Char) :
    startsWithChars pat (pat ++ r) = true := by
  induction pat with
  | nil => rfl
  | cons p ps ih => simp [startsWithChars, ih]

theorem hasSubChars_of_startsWithChars (pat l : List Char)
    (h : startsWithChars pat l = true) : hasSubChars pat l = true := by
  cases l with
  | nil => exact h
  | cons c cs => simp [hasSubChars, h]

theorem hasSubChars_append (pat l r : List Char) :
    hasSubChars pat (l ++ (pat ++ r)) = true := by
  induction l with
  | nil => exact hasSubChars_of_startsWithChars _ _ (startsWithChars_self_append pat r)
  | cons c cs ih => simp [hasSubChars, ih]

/-- A string obtained by appending `pat` to the right of any string contains
`pat`. -/
theorem strContains_append (a pat : String) : strContains (a ++ pat) pat = true := by
  unfold strContains
  rw [String.data_append]
  have h := hasSubChars_append pat.data a.data []
  simpa using h

theorem getD_set_of_ne {α : Type} (l : List α) (u i : Nat) (a d : α)
    (h : i ≠ u) : (l.set u a).getD i d = l.getD i d := by
  rw [List.getD_eq_getElem?_getD, List.getD_eq_getElem?_getD,
    List.getElem?_set_ne (Ne.symm h)]

theorem getD_set_self {α : Type} (l : List α) (u : Nat) (a d : α)
    (h : u < l.length) : (l.set u a).getD u d = a := by
  rw [List.getD_eq_getElem _ _ (by simpa using h)]
  exact List.getElem_set_self _

theorem getD_map {α β : Type} (f : α → β) (l : List α) (i : Nat) (d1 : α)
    (d2 : β) (h : i < l.length) : (l.map f).getD i d2 = f (l.getD i d1) := by
  rw [List.getD_eq_getElem _ _ (by simpa using h), List.getD_eq_getElem _ _ h]
  simp

theorem getD_zipWith {α β γ : Type} (f : α → β → γ) (l1 : List α) (l2 : List β)
    (i : Nat) (d1 : α) (d2 : β) (d3 : γ) (h1 : i < l1.length) (h2 : i < l2.length) :
    (List.zipWith f l1 l2).getD i d3 = f (l1.getD i d1) (l2.getD i d2) := by
  induction l1 generalizing l2 i with
  | nil => simp at h1
  | cons a l1 ih =>
    cases l2 with
    | nil => simp at h2
    | cons b l2 =>
      cases i with
      | zero => simp [List.zipWith_cons_cons]
      | succ i =>
        rw [List.zipWith_cons_cons, List.getD_cons_succ, List.getD_cons_succ,
          List.getD_cons_succ]
        exact ih l2 i (by simpa using h1) (by simpa using h2)

theorem mem_zipWith_exists {α β γ : Type} (f : α → β → γ) (l1 : List α)
    (l2 : List β) (v : γ) (h : v ∈ List.zipWith f l1 l2) :
    ∃ a ∈ l1, ∃ b ∈ l2, v = f a b := by
  induction l1 generalizing l2 with
  | nil => simp at h
  | cons a l1 ih =>
    cases l2 with
    | nil => simp at h
    | cons b l2 =>
      rw [List.zipWith_cons_cons] at h
      rcases List.mem_cons.mp h with h | h
      · exact ⟨a, List.mem_cons_self a l1, b, List.mem_cons_self b l2, h⟩
      · rcases ih l2 h with ⟨x, hx, y, hy, hv⟩
        exact ⟨x, List.mem_cons_of_mem _ hx, y, List.mem_cons_of_mem _ hy, hv⟩

/-! Helper lemmas about `scatter`. -/

theorem scatter_length (us : List Nat) (rs scores : List FpVal) :
    (scatter scores us rs).length = scores.length := by
  induction us generalizing scores rs with
  | nil => cases rs <;> rfl
  | cons u us ih =>
    cases rs with
    | nil => rfl
    | cons r rs => rw [scatter, ih, List.length_set]

theorem scatter_getD_of_not_mem (us : List Nat) (rs scores : List FpVal)
    (i : Nat) (d : FpVal) (h : i ∉ us) :
    (scatter scores us rs).getD i d = scores.getD i d := by
  induction us generalizing scores rs with
  | nil => cases rs <;> rfl
  | cons u us ih =>
    cases rs with
    | nil => rfl
    | cons r rs =>
      rw [scatter, ih rs (scores.set u r) (fun hm => h (List.mem_cons_of_mem _ hm)),
        getD_set_of_ne _ _ _ _ _ (fun he => h (by rw [he]; exact List.mem_cons_self u us))]

theorem scatter_getD_at (us : List Nat) (rs scores : List FpVal) (j : Nat)
    (d : FpVal) (hnd : us.Nodup) (hj : j < us.length)
    (hb : ∀ u ∈ us, u < scores.length) :
    (scatter scores us rs).getD (us.getD j 0) d = rs.getD j d ∨ rs.length ≤ j := by
  induction us generalizing scores rs j with
  | nil => simp at hj
  | cons u us ih =>
    cases rs with
    | nil => right; simp
    | cons r rs =>
      cases j with
      | zero =>
        left
        rw [scatter, List.getD_cons_zero, List.getD_cons_zero,
          scatter_getD_of_not_mem us rs _ u d (List.Nodup.not_mem hnd)]
        exact getD_set_self _ _ _ _ (hb u (List.mem_cons_self u us))
      | succ j =>
        rw [scatter, List.getD_cons_succ, List.getD_cons_succ]
        have hres := ih rs (scores.set u r) j (List.Nodup.of_cons hnd) (by simpa using hj)
          (fun v hv => by rw [List.length_set]; exact hb v (List.mem_cons_of_mem _ hv))
        rcases hres with h | h
        · exact Or.inl h
        · right; simpa using Nat.succ_le_succ h

theorem scatter_mem_finite (us : List Nat) (rs scores : List FpVal)
    (hs : ∀ s ∈ scores, s.isFiniteB = true) (hr : ∀ r ∈ rs, r.isFiniteB = true) :
    ∀ v ∈ scatter scores us rs, v.isFiniteB = true := by
  induction us generalizing scores rs with
  | nil => cases rs <;> exact fun v hv => hs v hv
  | cons u us ih =>
    cases rs with
    | nil => exact fun v hv => hs v hv
    | cons r rs =>
      rw [scatter]
      refine ih rs (scores.set u r) (fun v hv => ?_) (fun v hv => hr v (List.mem_cons_of_mem _ hv))
      rcases List.mem_or_eq_of_mem_set hv with hv | hv
      · exact hs v hv
      · exact hv ▸ hr r (List.mem_cons_self r rs)

/-! Claims about the base admission cascade (C1, C6). -/

/-- C1, counterexample: a request whose identity is in the blacklist but not
in the registry is denied with reason `Unrecognized hotkey`, which does not
contain the identity — refuting the claim that every request with a
blacklisted identity is denied with a reason containing that identity. -/
theorem c1_counterexample :
    ("Q" ∈ (["Q"] : List String)) ∧
    (base_blacklist [] ⟨1, Mode.restricted, [], ["Q"], 0, 60, 5⟩ ⟨"Q", 1⟩).allow
      = false ∧
    strContains
      (base_blacklist [] ⟨1, Mode.restricted, [], ["Q"], 0, 60, 5⟩ ⟨"Q", 1⟩).reason
      "Q" = false :=
  ⟨by decide, by decide, by decide⟩

/-- C1 (amended): for every request whose identity is recognized and whose
protocol version matches, if the identity is in the configured blacklist the
decision is deny with reason `Blacklisted hotkey: {identity}` — a reason
containing the identity — for every whitelist and mode (and independently of
any stake, which the base cascade never reads); the blacklist check is
evaluated before the allow-list check. -/
theorem c1_blacklist_deny (registry : List String) (cfg : GatekeeperConfig)
    (ctx : RequestContext) (hreg : ctx.identity ∈ registry)
    (hver : ctx.protocolVersion = cfg.protocolVersion)
    (hbl : ctx.identity ∈ cfg.blacklist) :
    base_blacklist registry cfg ctx =
      { allow := false, reason := "Blacklisted hotkey: " ++ ctx.identity } ∧
    strContains (base_blacklist registry cfg ctx).reason ctx.identity = true := by
  have hb : base_blacklist registry cfg ctx =
      { allow := false, reason := "Blacklisted hotkey: " ++ ctx.identity } := by
    unfold base_blacklist
    rw [if_pos hreg, if_pos hver, if_pos hbl]
  exact ⟨hb, by rw [hb]; exact strContains_append _ _⟩

/-- C1 witness: concrete blacklisted identity that is also whitelisted. -/
theorem c1_blacklist_deny_witness :
    base_blacklist ["b"] ⟨1, Mode.restricted, ["b"], ["b"], 0, 60, 5⟩ ⟨"b", 1⟩ =
      { allow := false, reason := "Blacklisted hotkey: " ++ "b" } ∧
    strContains
      (base_blacklist ["b"] ⟨1, Mode.restricted, ["b"], ["b"], 0, 60, 5⟩ ⟨"b", 1⟩).reason
      "b" = true :=
  c1_blacklist_deny ["b"] ⟨1, Mode.restricted, ["b"], ["b"], 0, 60, 5⟩ ⟨"b", 1⟩
    (by decide) (by decide) (by decide)

/-- C6, counterexample: in restricted mode with an EMPTY whitelist, a
recognized, version-matching, non-blacklisted request IS denied by the
allow-list gate — refuting the claim that an empty whitelist disables this
check. -/
theorem c6_counterexample :
    (⟨1, Mode.restricted, [], [], 0, 60, 5⟩ : GatekeeperConfig).whitelist = [] ∧
    base_blacklist ["h"] ⟨1, Mode.restricted, [], [], 0, 60, 5⟩ ⟨"h", 1⟩ =
      { allow := false, reason := "Not Whitelisted hotkey: " ++ "h" } :=
  ⟨rfl, by decide⟩

/-- C6 (amended): for requests passing the earlier checks (recognized
identity, matching version, not blacklisted), the allow-list gate denies with
reason `Not Whitelisted hotkey: {identity}` exactly when the mode is
restricted AND the identity is not in the whitelist — with no non-emptiness
condition on the whitelist, so in restricted mode an empty whitelist denies
every such request. -/
theorem c6_allow_gate (registry : List String) (cfg : GatekeeperConfig)
    (ctx : RequestContext) (hreg : ctx.identity ∈ registry)
    (hver : ctx.protocolVersion = cfg.protocolVersion)
    (hbl : ctx.identity ∉ cfg.blacklist) :
    base_blacklist registry cfg ctx =
      { allow := false, reason := "Not Whitelisted hotkey: " ++ ctx.identity } ↔
    (cfg.mode = Mode.restricted ∧ ctx.identity ∉ cfg.whitelist) := by
  unfold base_blacklist
  rw [if_pos hreg, if_pos hver, if_neg hbl]
  by_cases h : cfg.mode = Mode.restricted ∧ ctx.identity ∉ cfg.whitelist
  · rw [if_pos h]
    exact ⟨fun _ => h, fun _ => rfl⟩
  · rw [if_neg h]
    refine ⟨fun he => ?_, fun hc => absurd hc h⟩
    have hcontra := congrArg Decision.allow he
    simp at hcontra

/-- C6 witness: restricted mode, empty whitelist, concrete identity. -/
theorem c6_allow_gate_witness :
    (base_blacklist ["h"] ⟨1, Mode.restricted, [], [], 0, 60, 5⟩ ⟨"h", 1⟩ =
      { allow := false, reason := "Not Whitelisted hotkey: " ++ "h" } ↔
    (Mode.restricted = Mode.restricted ∧ "h" ∉ ([] : List String))) :=
  c6_allow_gate ["h"] ⟨1, Mode.restricted, [], [], 0, 60, 5⟩ ⟨"h", 1⟩
    (by decide) (by decide) (by decide)

/-- The base cascade allows a recognized, version-matching, non-blacklisted
request that is whitelisted whenever the mode is restricted. -/
theorem base_blacklist_allow (registry : List String) (cfg : GatekeeperConfig)
    (ctx : RequestContext) (hreg : ctx.identity ∈ registry)
    (hver : ctx.protocolVersion = cfg.protocolVersion)
    (hbl : ctx.identity ∉ cfg.blacklist)
    (hwl : cfg.mode = Mode.restricted → ctx.identity ∈ cfg.whitelist) :
    base_blacklist registry cfg ctx =
      { allow := true, reason := "Hotkey recognized" } := by
  unfold base_blacklist
  rw [if_pos hreg, if_pos hver, if_neg hbl, if_neg]
  rintro ⟨hm, hw⟩
  exact hw (hwl hm)

/-- C5: with `maxRequestsPerWindow = N` and window `W`, a request from an
identity that passes every earlier check and already has N recorded
timestamps inside the window is denied with the rate-exceeded reason naming
the identity; the same request issued at a time `later` for which every older
timestamp falls outside the window is allowed (for any positive N). -/
theorem c5_rate_limit (registry reachable : List String) (stakeOf : String → ℚ)
    (cfg : GatekeeperConfig) (ctx : RequestContext) (ts : List ℚ) (now later : ℚ)
    (hreg : ctx.identity ∈ registry)
    (hver : ctx.protocolVersion = cfg.protocolVersion)
    (hbl : ctx.identity ∉ cfg.blacklist)
    (hwl : cfg.mode = Mode.restricted → ctx.identity ∈ cfg.whitelist)
    (hreach : ctx.identity ∈ reachable)
    (hstake : cfg.mode = Mode.restricted → cfg.stakeThreshold ≤ stakeOf ctx.identity) :
    ((∀ t ∈ ts, now - t ≤ cfg.rateWindowSeconds) →
      ts.length = cfg.maxRequestsPerWindow →
      (discovery_blacklist registry reachable stakeOf cfg ctx ts now).1 =
        { allow := false, reason := "Request rate exceeded for " ++ ctx.identity }) ∧
    ((∀ t ∈ ts, cfg.rateWindowSeconds < later - t) →
      0 < cfg.maxRequestsPerWindow →
      (discovery_blacklist registry reachable stakeOf cfg ctx ts later).1 =
        { allow := true, reason := "Hotkey recognized!" }) := by
  have hbase := base_blacklist_allow registry cfg ctx hreg hver hbl hwl
  have hnreach : ¬(ctx.identity ∉ reachable) := fun hn => hn hreach
  have hnstake : ¬(cfg.mode = Mode.restricted ∧
      stakeOf ctx.identity < cfg.stakeThreshold) := by
    rintro ⟨hm, hs⟩
    exact absurd (hstake hm) (not_le.mpr hs)
  constructor
  · intro hin hlen
    simp only [discovery_blacklist, hbase]
    rw [if_neg (by simp), if_neg hnreach, if_neg hnstake]
    have hkeep : ts.filter (fun t => decide (now - t ≤ cfg.rateWindowSeconds)) = ts :=
      List.filter_eq_self.mpr (fun t ht => decide_eq_true (hin t ht))
    rw [hkeep, if_pos (le_of_eq hlen.symm)]
  · intro hout hpos
    simp only [discovery_blacklist, hbase]
    rw [if_neg (by simp), if_neg hnreach, if_neg hnstake]
    have hkeep : ts.filter (fun t => decide (later - t ≤ cfg.rateWindowSeconds)) = [] :=
      List.filter_eq_nil_iff.mpr
        (fun t ht => by simpa using not_le.mpr (hout t ht))
    rw [hkeep, if_neg (by simpa using Nat.pos_iff_ne_zero.mp hpos)]

/-- C5 witness: one recorded timestamp, window 60, budget 1: a request 30
seconds later is rate-limited, a request 100 seconds later is allowed. -/
theorem c5_rate_limit_witness :
    (discovery_blacklist ["h"] ["h"] (fun _ => 15)
      ⟨1, Mode.permissive, [], [], 10, 60, 1⟩ ⟨"h", 1⟩ [0] 30).1 =
      { allow := false, reason := "Request rate exceeded for " ++ "h" } ∧
    (discovery_blacklist ["h"] ["h"] (fun _ => 15)
      ⟨1, Mode.permissive, [], [], 10, 60, 1⟩ ⟨"h", 1⟩ [0] 100).1 =
      { allow := true, reason := "Hotkey recognized!" } := by
  have h := c5_rate_limit ["h"] ["h"] (fun _ => 15)
    ⟨1, Mode.permissive, [], [], 10, 60, 1⟩ ⟨"h", 1⟩ [0] 30 100
    (by decide) (by decide) (by decide) (fun hm => Mode.noConfusion hm)
    (by decide) (fun hm => Mode.noConfusion hm)
  refine ⟨h.1 (fun t ht => ?_) rfl, h.2 (fun t ht => ?_) (by decide)⟩
  · rcases List.mem_singleton.mp ht with rfl
    norm_num
  · rcases List.mem_singleton.mp ht with rfl
    norm_num

/-! Claim C2: the excluded-uid reset threshold. -/

/-- C2, counterexample: with 3 known uids and `top_rate = 1/2`, an excluded
list of length 2 IS cleared by the code (`int(3 * 1/2) = 1 < 2`) although
`2 > ceil(3 * 1/2) = 2` is false, so the claimed ceiling-based condition says
it should have been left unchanged. -/
theorem c2_counterexample :
    formatExcludedUids [0, 1] 3 (1 / 2) = [] ∧
    ¬((([0, 1] : List Nat).length : ℤ) > ⌈(1 / 2 : ℚ) * (3 : ℕ)⌉) := by
  constructor
  · simp only [formatExcludedUids, pyInt]
    norm_num
  · have hc : ⌈(1 / 2 : ℚ) * (3 : ℕ)⌉ = 2 := by
      rw [show ((1 / 2 : ℚ) * (3 : ℕ)) = 3 / 2 by norm_num]
      rw [Int.ceil_eq_iff]
      norm_num
    rw [hc]
    norm_num

/-- C2 (amended): after a growth of the excluded-uid list, the list is
cleared exactly when its size exceeds the TRUNCATED product
`int(top_rate * n)` (floor for the non-negative values arising here), not the
ceiling; at or below that truncated threshold it is left unchanged. -/
theorem c2_exclusion_reset (excluded : List Nat) (n : Nat) (topRate : ℚ) :
    (pyInt (topRate * n) < (excluded.length : ℤ) →
      formatExcludedUids excluded n topRate = []) ∧
    ((excluded.length : ℤ) ≤ pyInt (topRate * n) →
      formatExcludedUids excluded n topRate = excluded) := by
  refine ⟨fun h => ?_, fun h => ?_⟩
  · simp only [formatExcludedUids]
    rw [if_pos h]
  · simp only [formatExcludedUids]
    rw [if_neg (not_lt.mpr h)]

/-- C2 witness: length 2 is cleared and length 1 is kept at threshold
`int(3 * 1/2) = 1`. -/
theorem c2_exclusion_reset_witness :
    formatExcludedUids [0, 1] 3 (1 / 2) = [] ∧
    formatExcludedUids [0] 3 (1 / 2) = [0] := by
  refine ⟨(c2_exclusion_reset [0, 1] 3 (1 / 2)).1 ?_,
    (c2_exclusion_reset [0] 3 (1 / 2)).2 ?_⟩
  · simp only [pyInt]
    norm_num
  · simp only [pyInt]
    norm_num

/-! Claims about `update_scores` (C3, C4, C8). -/

theorem FpVal.isFiniteB_iff (v : FpVal) : v.isFiniteB = true ↔ ∃ q, v = .fin q := by
  cases v <;> simp [FpVal.isFiniteB]

theorem nanToNum_isFiniteB (v : FpVal) : (nanToNum v).isFiniteB = true := by
  cases v <;> rfl

theorem sanitize_map_fin (l : List ℚ) :
    sanitizeRewards (l.map FpVal.fin) = l.map FpVal.fin := by
  rw [sanitizeRewards, if_neg]
  simp [List.any_eq_true, FpVal.isNanB]

/-- C3, counterexample: a reward of `+∞` (a non-finite value that is not NaN)
is NOT treated as 0: with finite prior scores the sanitisation step is skipped
(no NaN present) and the updated score is `+∞`, a non-finite value. -/
theorem c3_counterexample :
    (FpVal.fin 0).isFiniteB = true ∧
    FpVal.pinf.isFiniteB = false ∧
    update_scores (1 / 2) [FpVal.fin 0] [FpVal.pinf] [0] = [FpVal.pinf] := by
  refine ⟨rfl, rfl, ?_⟩
  norm_num [update_scores, sanitizeRewards, scatter, emaStep, fmul, fadd,
    FpVal.isNanB]

/-- C3 (amended): every NaN reward is replaced by 0 before the
exponential-moving-average step (when a NaN is present the whole vector is
sanitised, which also clamps infinities to finite extremes), and provided no
reward is `±∞` and the prior scores are finite, every updated score is
finite. Rewards of `±∞` are NOT coerced to 0 by the code. -/
theorem c3_finite_update (alpha : ℚ) (scores rewards : List FpVal)
    (uids : List Nat) (hs : ∀ s ∈ scores, s.isFiniteB = true)
    (hr : ∀ r ∈ rewards, r ≠ FpVal.pinf ∧ r ≠ FpVal.ninf) :
    (∀ i, i < rewards.length → rewards.getD i FpVal.nan = FpVal.nan →
      (sanitizeRewards rewards).getD i FpVal.nan = FpVal.fin 0) ∧
    (∀ v ∈ update_scores alpha scores rewards uids, v.isFiniteB = true) := by
  constructor
  · intro i hi hnan
    have hmem : FpVal.nan ∈ rewards := by
      rw [← hnan, List.getD_eq_getElem _ _ hi]
      exact List.getElem_mem hi
    have hany : rewards.any FpVal.isNanB = true := by
      rw [List.any_eq_true]
      exact ⟨FpVal.nan, hmem, rfl⟩
    rw [sanitizeRewards, if_pos hany, getD_map nanToNum rewards i FpVal.nan _ hi,
      hnan]
    rfl
  · have hsan : ∀ r ∈ sanitizeRewards rewards, r.isFiniteB = true := by
      rw [sanitizeRewards]
      by_cases hany : rewards.any FpVal.isNanB = true
      · rw [if_pos hany]
        intro r hrm
        rcases List.mem_map.mp hrm with ⟨x, _, rfl⟩
        exact nanToNum_isFiniteB x
      · rw [if_neg hany]
        intro r hrm
        have hnn : r.isNanB = false := by
          rcases Bool.eq_false_or_eq_true r.isNanB with h | h
          · exact absurd (List.any_eq_true.mpr ⟨r, hrm, h⟩) hany
          · exact h
        rcases hr r hrm with ⟨hp, hn⟩
        cases r with
        | fin q => rfl
        | pinf => exact absurd rfl hp
        | ninf => exact absurd rfl hn
        | nan => exact absurd hnn (by simp [FpVal.isNanB])
    intro v hv
    rcases mem_zipWith_exists _ _ _ v hv with ⟨a, ha, b, hb, rfl⟩
    have hfa := scatter_mem_finite uids (sanitizeRewards rewards) scores hs hsan a ha
    have hfb := hs b hb
    rcases (FpVal.isFiniteB_iff a).mp hfa with ⟨qa, rfl⟩
    rcases (FpVal.isFiniteB_iff b).mp hfb with ⟨qb, rfl⟩
    rfl

/-- C3 witness: a NaN reward is sanitised to 0 and the updated score
`(1/2) * 0 + (1/2) * 1 = 1/2` is finite. -/
theorem c3_finite_update_witness :
    (sanitizeRewards [FpVal.nan]).getD 0 FpVal.nan = FpVal.fin 0 ∧
    (FpVal.fin (1 / 2)).isFiniteB = true := by
  have h := c3_finite_update (1 / 2) [FpVal.fin 1] [FpVal.nan] [0]
    (by
      intro s hs_
      rw [List.mem_singleton] at hs_
      subst hs_
      rfl)
    (by
      intro r hr_
      rw [List.mem_singleton] at hr_
      subst hr_
      exact ⟨fun hh => FpVal.noConfusion hh, fun hh => FpVal.noConfusion hh⟩)
  refine ⟨h.1 0 (by simp) rfl, h.2 (FpVal.fin (1 / 2)) ?_⟩
  norm_num [update_scores, sanitizeRewards, scatter, emaStep, fmul, fadd,
    FpVal.isNanB, nanToNum]

/-- C4: with distinct in-range uids and aligned reward vector, every uid
present in the reward mapping gets exactly
`alpha * reward + (1 - alpha) * oldScore`, every position absent from the
uids keeps exactly its previous score, and the spec scenario
`scores = {A:10, B:0, C:0}`, `update({A:0, B:0, C:0})`, `alpha = 1/2` yields
`{A:5, B:0, C:0}`. -/
theorem c4_ema_update (alpha : ℚ) (scores rewards : List ℚ) (uids : List Nat)
    (h0 : 0 < alpha) (h1 : alpha ≤ 1) (hnd : uids.Nodup)
    (hlen : uids.length = rewards.length)
    (hb : ∀ u ∈ uids, u < scores.length) :
    (∀ j, j < uids.length →
      (update_scores alpha (scores.map FpVal.fin) (rewards.map FpVal.fin)
          uids).getD (uids.getD j 0) (FpVal.fin 0) =
        FpVal.fin (alpha * rewards.getD j 0 +
          (1 - alpha) * scores.getD (uids.getD j 0) 0)) ∧
    (∀ i, i < scores.length → i ∉ uids →
      (update_scores alpha (scores.map FpVal.fin) (rewards.map FpVal.fin)
          uids).getD i (FpVal.fin 0) = FpVal.fin (scores.getD i 0)) ∧
    update_scores (1 / 2) [FpVal.fin 10, FpVal.fin 0, FpVal.fin 0]
        [FpVal.fin 0, FpVal.fin 0, FpVal.fin 0] [0, 1, 2] =
      [FpVal.fin 5, FpVal.fin 0, FpVal.fin 0] := by
  have hmaplen : (scores.map FpVal.fin).length = scores.length := List.length_map _ _
  have hbmap : ∀ u ∈ uids, u < (scores.map FpVal.fin).length := by
    intro u hu
    rw [hmaplen]
    exact hb u hu
  refine ⟨?_, ?_, ?_⟩
  · intro j hj
    have hu : uids.getD j 0 ∈ uids := by
      rw [List.getD_eq_getElem _ _ hj]
      exact List.getElem_mem hj
    have hulen : uids.getD j 0 < scores.length := hb _ hu
    rw [update_scores, sanitize_map_fin, emaStep,
      getD_zipWith _ _ _ _ (FpVal.fin 0) (FpVal.fin 0) _
        (by rw [scatter_length, hmaplen]; exact hulen)
        (by rw [hmaplen]; exact hulen)]
    have hsc := scatter_getD_at uids (rewards.map FpVal.fin)
      (scores.map FpVal.fin) j (FpVal.fin 0) hnd hj hbmap
    rcases hsc with hsc | hsc
    · rw [hsc, getD_map FpVal.fin rewards j 0 _ (by rw [← hlen]; exact hj),
        getD_map FpVal.fin scores _ 0 _ hulen]
      rfl
    · rw [List.length_map, ← hlen] at hsc
      exact absurd hj (not_lt.mpr hsc)
  · intro i hi hni
    rw [update_scores, sanitize_map_fin, emaStep,
      getD_zipWith _ _ _ _ (FpVal.fin 0) (FpVal.fin 0) _
        (by rw [scatter_length, hmaplen]; exact hi) (by rw [hmaplen]; exact hi),
      scatter_getD_of_not_mem _ _ _ _ _ hni,
      getD_map FpVal.fin scores i 0 _ hi]
    show FpVal.fin (alpha * scores.getD i 0 + (1 - alpha) * scores.getD i 0) =
      FpVal.fin (scores.getD i 0)
    congr 1
    ring
  · norm_num [update_scores, sanitizeRewards, scatter, emaStep, fmul, fadd,
      FpVal.isNanB]

/-- C4 witness: scores `[10, 0, 0]`, reward `7` for uid `0`, `alpha = 1/2`:
position 0 becomes `1/2 * 7 + 1/2 * 10 = 17/2` and position 1 is unchanged. -/
theorem c4_ema_update_witness :
    (update_scores (1 / 2) ([10, 0, 0].map FpVal.fin) ([7].map FpVal.fin)
        [0]).getD (([0] : List Nat).getD 0 0) (FpVal.fin 0) =
      FpVal.fin (1 / 2 * ([(7 : ℚ)].getD 0 0) +
        (1 - 1 / 2) * ([(10 : ℚ), 0, 0].getD (([0] : List Nat).getD 0 0) 0)) ∧
    (update_scores (1 / 2) ([10, 0, 0].map FpVal.fin) ([7].map FpVal.fin)
        [0]).getD 1 (FpVal.fin 0) = FpVal.fin ([(10 : ℚ), 0, 0].getD 1 0) := by
  have h := c4_ema_update (1 / 2) [10, 0, 0] [7] [0] (by norm_num) (by norm_num)
    (by simp) rfl (by intro u hu; rw [List.mem_singleton] at hu; subst hu; simp)
  exact ⟨h.1 0 (by simp), h.2.1 1 (by simp) (by simp)⟩

/-- C8: the score update is idempotent at its fixed point — updating with the
single-entry mapping assigning to position `i` its own current (finite)
score leaves that score unchanged, for any `alpha` in `(0, 1]`. -/
theorem c8_ema_idempotent (alpha : ℚ) (scores : List FpVal) (i : Nat) (q : ℚ)
    (h0 : 0 < alpha) (h1 : alpha ≤ 1) (hi : i < scores.length)
    (hq : scores.getD i (FpVal.fin 0) = FpVal.fin q) :
    (update_scores alpha scores [scores.getD i (FpVal.fin 0)] [i]).getD i
        (FpVal.fin 0) =
      scores.getD i (FpVal.fin 0) := by
  rw [hq, update_scores]
  have hsan : sanitizeRewards [FpVal.fin q] = [FpVal.fin q] := by
    rw [sanitizeRewards, if_neg]
    simp [FpVal.isNanB]
  rw [hsan]
  show (emaStep alpha (scatter scores [i] [FpVal.fin q]) scores).getD i
      (FpVal.fin 0) = FpVal.fin q
  have hscat : scatter scores [i] [FpVal.fin q] = scores.set i (FpVal.fin q) := rfl
  rw [emaStep, hscat,
    getD_zipWith _ _ _ _ (FpVal.fin 0) (FpVal.fin 0) _
      (by rw [List.length_set]; exact hi) hi,
    getD_set_self _ _ _ _ hi, hq]
  show FpVal.fin (alpha * q + (1 - alpha) * q) = FpVal.fin q
  congr 1
  ring

/-- C8 witness: a single score `3` updated with reward `3` stays `3`. -/
theorem c8_ema_idempotent_witness :
    (update_scores (1 / 2) [FpVal.fin 3]
        [([FpVal.fin 3] : List FpVal).getD 0 (FpVal.fin 0)] [0]).getD 0
        (FpVal.fin 0) =
      ([FpVal.fin 3] : List FpVal).getD 0 (FpVal.fin 0) :=
  c8_ema_idempotent (1 / 2) [FpVal.fin 3] 0 3 (by norm_num) (by norm_num)
    (by simp) rfl

/-! Claims about the reward section and the response choice (C10, C9). -/

theorem map_const_replicate {α β : Type} (l : List α) (b : β) :
    l.map (fun _ => b) = List.replicate l.length b := by
  induction l with
  | nil => rfl
  | cons a l ih => simp [ih, List.replicate_succ]

theorem zip_replicate_self {α β : Type} (l : List α) (b : β) :
    (List.replicate l.length b).zip l = l.map (fun x => (b, x)) := by
  induction l with
  | nil => rfl
  | cons a l ih => simp [List.replicate_succ, ih]

/-- C10: the reward computation returns the constant `1/2` for every
(response, uid) pair, so no computed reward is the no-reward marker `None`,
the filter that drops `None` rewards removes nothing, and whenever at least
one response arrived (with its aligned uid list) the score update is invoked
with a reward vector all of whose entries equal `1/2`, paired with exactly
the responded uids. -/
theorem c10_constant_reward (responses : List String) (uids : List Nat)
    (hne : responses ≠ []) (hlen : responses.length = uids.length) :
    (∀ r u, get_reward r u = some (1 / 2)) ∧
    (filtered_data responses uids).length = uids.length ∧
    updateCall responses uids =
      some (List.replicate uids.length (1 / 2), uids) := by
  have hziplen : (responses.zip uids).length = uids.length := by
    rw [List.length_zip, hlen, min_self]
  have hfd : filtered_data responses uids =
      uids.map (fun u => (some (1 / 2), u)) := by
    rw [filtered_data, rewardList]
    have hfn : (fun p : String × Nat => get_reward p.1 p.2) =
        (fun _ : String × Nat => some ((1 : ℚ) / 2)) := rfl
    rw [hfn, map_const_replicate, hziplen, zip_replicate_self]
    apply List.filter_eq_self.mpr
    intro p hp
    rcases List.mem_map.mp hp with ⟨u, _, rfl⟩
    rfl
  refine ⟨fun r u => rfl, ?_, ?_⟩
  · rw [hfd, List.length_map]
  · have hune : uids ≠ [] := by
      intro hnil
      rw [hnil] at hlen
      exact hne (List.eq_nil_of_length_eq_zero hlen)
    simp only [updateCall]
    rw [hfd, if_neg]
    · have hfn2 : ((fun p : Option ℚ × Nat => p.1.getD 0) ∘
          (fun u : Nat => ((some ((1 : ℚ) / 2)), u))) =
          (fun _ : Nat => (1 : ℚ) / 2) := rfl
      have hfn3 : (Prod.snd ∘ (fun u : Nat => ((some ((1 : ℚ) / 2)), u))) =
          (fun u : Nat => u) := rfl
      rw [List.map_map, List.map_map, hfn2, hfn3, map_const_replicate,
        List.map_id']
    · rw [List.isEmpty_iff]
      intro hnil
      exact hune (List.map_eq_nil.mp hnil)

/-- C10 witness: one response with uid 7. -/
theorem c10_constant_reward_witness :
    get_reward "resp" 7 = some (1 / 2) ∧
    (filtered_data ["resp"] [7]).length = ([7] : List Nat).length ∧
    updateCall ["resp"] [7] =
      some (List.replicate ([7] : List Nat).length (1 / 2), [7]) := by
  have h := c10_constant_reward ["resp"] [7] (by simp) rfl
  exact ⟨h.1 "resp" 7, h.2.1, h.2.2⟩

/-- C9, counterexample: with duplicate responses `["a", "a"]` from uids
`[0, 1]`, a draw of position 1 returns the response of position 1 but
attributes it to the hotkey of uid 0 (the FIRST position holding an equal
response), not to the drawn responder's hotkey `h1`. -/
theorem c9_counterexample :
    (chooseResponse ["a", "a"] [0, 1] ["h0", "h1"] 1).2 = "h0" ∧
    (["h0", "h1"] : List String).getD (([0, 1] : List Nat).getD 1 0) "" = "h1" ∧
    ("h0" : String) ≠ "h1" := by
  refine ⟨by decide, rfl, by decide⟩

/-- C9 (amended): for every drawn position the returned text is exactly the
drawn responder's response (so the returned response is uniform over the
successful responses when the draw is uniform); the returned miner identity
is the hotkey of the FIRST responder whose response equals the drawn one,
which coincides with the drawn responder's hotkey whenever the responses are
pairwise distinct. -/
theorem c9_choice (responses : List String) (uids : List Nat)
    (hotkeys : List String) (draw : Nat) (hd : draw < responses.length) :
    (chooseResponse responses uids hotkeys draw).1 = responses.getD draw "" ∧
    (responses.Nodup →
      (chooseResponse responses uids hotkeys draw).2 =
        hotkeys.getD (uids.getD draw 0) "") := by
  have hmem : responses.getD draw "" ∈ responses := by
    rw [List.getD_eq_getElem _ _ hd]
    exact List.getElem_mem hd
  have hidx : List.indexOf (responses.getD draw "") responses <
      responses.length := List.indexOf_lt_length.mpr hmem
  constructor
  · simp only [chooseResponse]
    have hget := List.indexOf_get (a := responses.getD draw "")
      (l := responses) hidx
    rw [List.get_eq_getElem] at hget
    rw [List.getD_eq_getElem _ _ hidx]
    exact hget
  · intro hnd
    simp only [chooseResponse]
    have heq : List.indexOf (responses.getD draw "") responses = draw := by
      rw [List.getD_eq_getElem _ _ hd]
      exact List.indexOf_getElem hnd draw hd
    rw [heq]

/-- C9 witness: distinct responses, draw of position 1 returns the text and
the hotkey of responder 1. -/
theorem c9_choice_witness :
    (chooseResponse ["a", "b"] [0, 1] ["h0", "h1"] 1).1 =
      (["a", "b"] : List String).getD 1 "" ∧
    (chooseResponse ["a", "b"] [0, 1] ["h0", "h1"] 1).2 =
      (["h0", "h1"] : List String).getD (([0, 1] : List Nat).getD 1 0) "" := by
  have h := c9_choice ["a", "b"] [0, 1] ["h0", "h1"] 1 (by simp)
  exact ⟨h.1, h.2 (by decide)⟩

/-! Claim C7: the weight publication pipeline. -/

theorem range_map_getD {α : Type} (l : List α) (d : α) :
    (List.range l.length).map (fun i => l.getD i d) = l := by
  induction l with
  | nil => rfl
  | cons a l ih =>
    rw [List.length_cons, List.range_succ_eq_map, List.map_cons, List.map_map]
    have hfn : ((fun i => (a :: l).getD i d) ∘ Nat.succ) =
        (fun i => l.getD i d) := by
      funext i
      simp [List.getD_cons_succ]
    rw [hfn, ih, List.getD_cons_zero]

theorem sum_indicator_eq_filter_length (L E : List Nat) :
    (L.map (fun i => if i ∈ E then (1 : ℤ) else 0)).sum =
      ((L.filter (fun i => decide (i ∈ E))).length : ℤ) := by
  induction L with
  | nil => rfl
  | cons a L ih =>
    rw [List.map_cons, List.sum_cons, List.filter_cons]
    by_cases h : a ∈ E
    · rw [if_pos h, if_pos (decide_eq_true h), List.length_cons, ih]
      push_cast
      ring
    · rw [if_neg h, if_neg (by simpa using h), ih, zero_add]

theorem filter_mem_length_le (L E : List Nat) (hnd : L.Nodup) :
    (L.filter (fun i => decide (i ∈ E))).length ≤ E.length := by
  apply List.Subperm.length_le
  apply List.Nodup.subperm (List.Nodup.filter _ hnd)
  intro x hx
  exact of_decide_eq_true (List.mem_filter.mp hx).2

theorem sum_floor_le (ws : List ℚ) (c : ℚ) :
    (ws.map (fun w => ⌊w * c⌋)).sum ≤ ⌊ws.sum * c⌋ := by
  induction ws with
  | nil => simp
  | cons a l ih =>
    rw [List.map_cons, List.sum_cons, List.sum_cons, add_mul]
    calc ⌊a * c⌋ + (l.map (fun w => ⌊w * c⌋)).sum
        ≤ ⌊a * c⌋ + ⌊l.sum * c⌋ := add_le_add_left ih _
      _ ≤ ⌊a * c + l.sum * c⌋ := by
          rw [Int.le_floor]
          push_cast
          exact add_le_add (Int.floor_le _) (Int.floor_le _)

theorem sum_floors_add_extra_le (floors : List ℤ) (extra : List Nat) (B : ℤ)
    (hfl : floors.sum ≤ B)
    (hex : (extra.length : ℤ) ≤ B - floors.sum) :
    ((List.range floors.length).map
      (fun i => floors.getD i 0 + if i ∈ extra then 1 else 0)).sum ≤ B := by
  rw [List.sum_map_add, range_map_getD, sum_indicator_eq_filter_length]
  have h3 : ((List.range floors.length).filter
      (fun i => decide (i ∈ extra))).length ≤ extra.length :=
    filter_mem_length_le _ _ (List.nodup_range _)
  have h4 : (((List.range floors.length).filter
      (fun i => decide (i ∈ extra))).length : ℤ) ≤ (extra.length : ℤ) := by
    exact_mod_cast h3
  linarith

theorem quantize_sum_le (ws : List ℚ) (B : ℕ) (hs : ws.sum ≤ 1) :
    (quantize ws B).sum ≤ (B : ℤ) := by
  have hfl : (ws.map (fun w => ⌊w * (B : ℚ)⌋)).sum ≤ (B : ℤ) := by
    calc (ws.map (fun w => ⌊w * (B : ℚ)⌋)).sum
        ≤ ⌊ws.sum * (B : ℚ)⌋ := sum_floor_le ws B
      _ ≤ ⌊((B : ℕ) : ℚ)⌋ :=
          Int.floor_le_floor (mul_le_of_le_one_left (Nat.cast_nonneg B) hs)
      _ = (B : ℤ) := Int.floor_natCast B
  simp only [quantize]
  rw [show ws.length = (ws.map (fun w => ⌊w * (B : ℚ)⌋)).length from
    (List.length_map _ _).symm]
  apply sum_floors_add_extra_le _ _ _ hfl
  rw [List.length_map, List.length_take]
  rw [← Int.toNat_of_nonneg (sub_nonneg.mpr hfl)]
  exact_mod_cast min_le_left _ _

theorem quantize_nonneg (ws : List ℚ) (B : ℕ) (hw : ∀ w ∈ ws, 0 ≤ w) :
    ∀ x ∈ quantize ws B, 0 ≤ x := by
  intro x hx
  simp only [quantize] at hx
  rcases List.mem_map.mp hx with ⟨i, hi, rfl⟩
  have hilt : i < ws.length := List.mem_range.mp hi
  rw [getD_map _ _ _ (0 : ℚ) _ hilt]
  have hwi : 0 ≤ ws.getD i 0 := by
    apply hw
    rw [List.getD_eq_getElem _ _ hilt]
    exact List.getElem_mem hilt
  have h1 : (0 : ℤ) ≤ ⌊ws.getD i 0 * (B : ℚ)⌋ :=
    Int.floor_nonneg.mpr (mul_nonneg hwi (Nat.cast_nonneg B))
  have h2 : (0 : ℤ) ≤ (if i ∈ (((((List.range ws.length).map
      (fun j => (j, (ws.map (fun w => w * (B : ℚ) -
        (⌊w * (B : ℚ)⌋ : ℚ))).getD j 0))).mergeSort
      (fun a b => decide (b.2 ≤ a.2))).take
      (((B : ℤ) - (ws.map (fun w => ⌊w * (B : ℚ)⌋)).sum).toNat)).map Prod.fst)
      then (1 : ℤ) else 0) := by
    split <;> norm_num
  exact add_nonneg h1 h2

theorem list_sum_map_div (l : List ℚ) (c : ℚ) :
    (l.map (fun x => x / c)).sum = l.sum / c := by
  induction l with
  | nil => simp
  | cons a l ih => rw [List.map_cons, List.sum_cons, List.sum_cons, ih, add_div]

/-- C7: the published weight vector always satisfies
`sum(quantizedWeights) ≤ B` and `quantizedWeights[i] ≥ 0` for every i (for
the non-negative scores of the data model), and when all input scores are 0
the L1-normalisation short-circuits with no division and every output weight
is 0. -/
theorem c7_publish (scores : List ℚ) (B : ℕ) (hpos : ∀ s ∈ scores, 0 ≤ s) :
    (publish scores B).sum ≤ (B : ℤ) ∧
    (∀ w ∈ publish scores B, 0 ≤ w) ∧
    ((∀ s ∈ scores, s = 0) → publish scores B = scores.map (fun _ => 0)) := by
  by_cases hz : scores.sum = 0
  · simp only [publish]
    rw [if_pos hz]
    refine ⟨?_, ?_, fun _ => rfl⟩
    · rw [map_const_replicate, List.sum_replicate, smul_zero]
      exact Int.ofNat_nonneg B
    · intro w hw_
      rcases List.mem_map.mp hw_ with ⟨s, _, rfl⟩
      exact le_refl 0
  · simp only [publish]
    rw [if_neg hz]
    have hS : 0 < scores.sum :=
      lt_of_le_of_ne (List.sum_nonneg hpos) (Ne.symm hz)
    have hsum1 : (scores.map (fun s => s / scores.sum)).sum = 1 := by
      rw [list_sum_map_div, div_self hz]
    have hnn : ∀ w ∈ scores.map (fun s => s / scores.sum), 0 ≤ w := by
      intro w hw_
      rcases List.mem_map.mp hw_ with ⟨s, hsmem, rfl⟩
      exact div_nonneg (hpos s hsmem) (le_of_lt hS)
    exact ⟨quantize_sum_le _ _ (le_of_eq hsum1), quantize_nonneg _ _ hnn,
      fun hall => absurd (List.sum_eq_zero hall) hz⟩

/-- C7 witness: scores `[1, 3]` respect the budget 10, and all-zero scores
publish all-zero weights. -/
theorem c7_publish_witness :
    (publish [1, 3] 10).sum ≤ ((10 : ℕ) : ℤ) ∧
    publish [0, 0] 10 = ([0, 0] : List ℚ).map (fun _ => 0) := by
  refine ⟨(c7_publish [1, 3] 10 ?_).1, (c7_publish [0, 0] 10 ?_).2.2 ?_⟩
  · intro s hs_
    simp at hs_
    rcases hs_ with rfl | rfl <;> norm_num
  · intro s hs_
    simp at hs_
    rcases hs_ with rfl | rfl <;> norm_num
  · intro s hs_
    simp at hs_
    rcases hs_ with rfl | rfl <;> norm_num
